import Mathlib

/-!
Verification development for the image-to-PDF converter
(src/images-to-pdf.py).  The natural-sort fallback path, the pixel
normalization policy and the orchestration of convert_images_to_pdf /
main are shallowly embedded below; filenames are lists of characters
(Unicode code points), pixels are lists of rationals.
-/

/-! ## Character-level helpers

Python primitives used by natural_sort_key.  A filename is a
`List Char`.  Comparison of Python strings is code-point-wise, which we
model through `Char.toNat`.
-/

/-- ASCII digit test: this is exactly the character class `[0-9]` used by
the `re.split` pattern in natural_sort_key. -/
def isDig (c : Char) : Bool := 48 ≤ c.toNat && c.toNat ≤ 57

/-- Python `str.isdigit` on a single character.  Python accepts every
Unicode decimal digit; the model covers the code points exercised in this
development: the ASCII digits and the Arabic-Indic digits U+0660..U+0669
(a conservative restriction of the real predicate, which is true on further
code points as well). -/
def pyIsDigitChar (c : Char) : Bool :=
  isDig c || (1632 ≤ c.toNat && c.toNat ≤ 1641)

/-- Numeric value of a digit character as used by Python `int()`:
ASCII and Arabic-Indic decimal digits carry their decimal value. -/
def pyDigitVal (c : Char) : Nat :=
  if 48 ≤ c.toNat && c.toNat ≤ 57 then c.toNat - 48
  else if 1632 ≤ c.toNat && c.toNat ≤ 1641 then c.toNat - 1632
  else 0

/-- Python `int(s)` on a string of decimal digits (the only way
natural_sort_key reaches `int`): base-10 value of the digit sequence. -/
def pyInt (s : List Char) : Nat := s.foldl (fun a c => a * 10 + pyDigitVal c) 0

/-- Python `str.isdigit` on a whole string: nonempty and every character
is a digit. -/
def pyStrIsDigit (s : List Char) : Bool := !s.isEmpty && s.all pyIsDigitChar

/-- Python `str.lower` on one character, modelled on the ASCII range
(the counterexamples and examples in this development use ASCII letters
only, and the theorems quantifying over all names do not depend on the
case table). -/
def pyLower (c : Char) : Char :=
  if 65 ≤ c.toNat && c.toNat ≤ 90 then Char.ofNat (c.toNat + 32) else c

/-- Python `str.lower` on a whole string. -/
def lowerStr (s : List Char) : List Char := s.map pyLower

/-- Python `<` on strings: code-point lexicographic order. -/
def strLt : List Char → List Char → Bool
  | [], [] => false
  | [], _ :: _ => true
  | _ :: _, [] => false
  | c :: cs, d :: ds => if c = d then strLt cs ds else decide (c.toNat < d.toNat)

/-! ## The fallback sort key (natural_sort_key)

`re.split('([0-9]+)', name)` splits a name at the maximal runs of ASCII
digits, keeping the runs (the pattern has a capturing group), so the
result alternates gap, run, gap, run, ..., gap, where the gaps at either
end may be empty.  `convert` turns each chunk into an `int` when
`str.isdigit` holds and into its lower-cased text otherwise.
-/

/-- A sort-key token: Python `int` or Python `str` chunk. -/
inductive Tok
  | int (v : Nat)
  | str (s : List Char)
deriving DecidableEq

/-- The chunk list produced by `re.split` with the capturing pattern
`([0-9]+)`: `mode = false` while accumulating a non-digit gap,
`mode = true` while accumulating a digit run; `cur` is the current chunk
in reverse.  After a final digit run, `re.split` appends an empty gap. -/
def splitChunks (mode : Bool) (cur : List Char) : List Char → List (List Char)
  | [] => if mode then [cur.reverse, []] else [cur.reverse]
  | c :: cs =>
    if isDig c = mode then splitChunks mode (c :: cur) cs
    else cur.reverse :: splitChunks (!mode) [c] cs

/-- The per-chunk conversion from natural_sort_key:
`int(text) if text.isdigit() else text.lower()`. -/
def convert (chunk : List Char) : Tok :=
  if pyStrIsDigit chunk then Tok.int (pyInt chunk) else Tok.str (lowerStr chunk)

/-- natural_sort_key from the source:
`[convert(c) for c in re.split('([0-9]+)', path.name)]`. -/
def natural_sort_key (name : List Char) : List Tok :=
  (splitChunks false [] name).map convert

/-- Python `<` on two tokens: numeric on two ints, lexicographic on two
strings, and a TypeError (modelled as `none`) on a mixed pair. -/
def tokLt : Tok → Tok → Option Bool
  | Tok.int m, Tok.int n => some (decide (m < n))
  | Tok.str s, Tok.str t => some (strLt s t)
  | _, _ => none

/-- Python `<` on two key lists: find the first position where the
elements differ under `==` (mixed int/str compare unequal without error)
and compare there with `<`, which raises on a mixed pair; if one list is
a prefix of the other, the shorter is smaller. -/
def ltPyList : List Tok → List Tok → Option Bool
  | [], [] => some false
  | [], _ :: _ => some true
  | _ :: _, [] => some false
  | t₁ :: ts₁, t₂ :: ts₂ => if t₁ = t₂ then ltPyList ts₁ ts₂ else tokLt t₁ t₂

/-- The comparison `natural_sort_key(a) < natural_sort_key(b)` performed
by `image_files.sort(key=natural_sort_key)`. -/
def ltName (a b : List Char) : Option Bool :=
  ltPyList (natural_sort_key a) (natural_sort_key b)

/-! ## Stable sorting

Python's `list.sort` and `natsorted` are stable sorts; a stable sort
over a total preorder is unique, so both are modelled by a stable
insertion sort.  The fallback path's comparator can raise a TypeError,
so its sort is `Option`-valued (`none` = the sort call raises); the
spec-modelled natsort path is total.
-/

/-- Insert `x` (originally earlier than every element of the list) into a
sorted list: `x` goes in front of the first element not strictly below
it; a failing comparison aborts the sort. -/
def insertO {α : Type} (lt : α → α → Option Bool) (x : α) : List α → Option (List α)
  | [] => some [x]
  | y :: ys =>
    match lt y x with
    | none => none
    | some true =>
      match insertO lt x ys with
      | none => none
      | some zs => some (y :: zs)
    | some false => some (x :: y :: ys)

/-- Stable insertion sort with a fallible comparator. -/
def sortO {α : Type} (lt : α → α → Option Bool) : List α → Option (List α)
  | [] => some []
  | x :: xs =>
    match sortO lt xs with
    | none => none
    | some m => insertO lt x m

/-- Insert with a total Boolean comparator (stable, as in `insertO`). -/
def insertB {α : Type} (lt : α → α → Bool) (x : α) : List α → List α
  | [] => [x]
  | y :: ys => if lt y x then y :: insertB lt x ys else x :: y :: ys

/-- Stable insertion sort with a total comparator. -/
def sortB {α : Type} (lt : α → α → Bool) : List α → List α
  | [] => []
  | x :: xs => insertB lt x (sortB lt xs)

/-- The fallback code path `image_files.sort(key=natural_sort_key)`:
a stable sort of the names under the Python comparison of their keys,
`none` when some comparison raises a TypeError. -/
def sort_by_natural_key (l : List (List Char)) : Option (List (List Char)) :=
  sortO ltName l

/-! ## The spec-modelled natsort path

Modelled from the spec: the `natsorted(..., alg=ns.IGNORECASE)` library
path is not part of this repository, so it is modelled from the words of
spec sections 4.1 and 9: split each name into maximal alternating
digit/non-digit runs, omitting an empty chunk at either end; tag digit
runs with their integer value and other runs with their lower-cased
text; compare token sequences element-wise with the policy that a text
token precedes a numeric token at a mixed position, shorter sequence
first on a tie.
-/

/-- Modelled from the spec: tag a chunk list alternately (text chunk,
numeric chunk, ...), dropping empty chunks, which occur only at the
ends of a maximal-run decomposition. -/
def tagChunks : Bool → List (List Char) → List Tok
  | _, [] => []
  | isRun, ch :: rest =>
    (if ch = [] then []
     else [if isRun then Tok.int (pyInt ch) else Tok.str (lowerStr ch)]) ++
    tagChunks (!isRun) rest

/-- Modelled from the spec: the token sequence of a name in the
spec-modelled natsort path. -/
def specKey (name : List Char) : List Tok :=
  tagChunks false (splitChunks false [] name)

/-- Modelled from the spec: strict token comparison with the fixed
mixed-type precedence "text precedes numeric". -/
def specTokLt : Tok → Tok → Bool
  | Tok.int m, Tok.int n => decide (m < n)
  | Tok.str s, Tok.str t => strLt s t
  | Tok.str _, Tok.int _ => true
  | Tok.int _, Tok.str _ => false

/-- Modelled from the spec: element-wise comparison of token sequences,
shorter sequence first when the common positions agree. -/
def specLtKeys : List Tok → List Tok → Bool
  | [], [] => false
  | [], _ :: _ => true
  | _ :: _, [] => false
  | t₁ :: ts₁, t₂ :: ts₂ => if t₁ = t₂ then specLtKeys ts₁ ts₂ else specTokLt t₁ t₂

/-- Modelled from the spec: the name ordering of the natsort path. -/
def spec_lt_name (a b : List Char) : Bool := specLtKeys (specKey a) (specKey b)

/-- Modelled from the spec: the natsort code path
`natsorted(image_files, key=lambda x: x.name, alg=ns.IGNORECASE)`,
as a stable sort under the specified total comparator. -/
def natsorted (l : List (List Char)) : List (List Char) := sortB spec_lt_name l

/-- A name whose first character is an ASCII digit. -/
def startsDig : List Char → Bool
  | [] => false
  | c :: _ => isDig c

/-- A name on which Python's per-character digit test agrees with the
ASCII class `[0-9]` of the splitting pattern (every all-ASCII name is
tame). -/
def Tame (n : List Char) : Prop := ∀ c ∈ n, pyIsDigitChar c = isDig c

instance (n : List Char) : Decidable (Tame n) := by
  unfold Tame
  infer_instance

/-! ## The image model and the normalizer

A decoded image is its reported color mode, its size and its pixels
(flattened row-major, one list of rational channel values per pixel).
The source's normalization (convert_images_to_pdf, lines 94-105): modes
RGB and L pass through (`img.copy()` is the identity in value
semantics); RGBA is pasted over a white RGB background using its alpha
channel as mask; every other mode goes through the library conversion
to RGB.
-/

/-- The color modes distinguished by the source: `'L'`, `'RGB'`,
`'RGBA'`, and representatives of the remaining branch
(`img.convert('RGB')`), among them the alpha-carrying modes `'LA'`
(grayscale plus alpha) and `'PA'` (palette plus alpha), which the
source does NOT special-case: they fall through to the library
conversion. -/
inductive Mode
  | L
  | RGB
  | RGBA
  | LA
  | PA
  | P
  | CMYK
deriving DecidableEq

/-- One pixel: its channel values. -/
abbrev Pixel := List ℚ

/-- A decoded image. -/
structure Image where
  mode : Mode
  size : Nat × Nat
  data : List Pixel
deriving DecidableEq

/-- Modelled from the spec: the Pillow paste-with-mask blend of one
channel over a background channel, `src*alpha + bg*(1-alpha)` with the
8-bit alpha scaled to `[0,1]` (the library's integer rounding is
idealized to exact rational arithmetic). -/
def pasteBlend (bg src a : ℚ) : ℚ := src * (a / 255) + bg * (1 - a / 255)

/-- Pasting an RGBA pixel onto the white RGB background
`Image.new('RGB', img.size, (255, 255, 255))` with the alpha channel
`img.split()[-1]` as mask: the alpha channel is consumed. -/
def blendOntoWhite : Pixel → Pixel
  | [r, g, b, a] => [pasteBlend 255 r a, pasteBlend 255 g a, pasteBlend 255 b a]
  | p => p

/-- Modelled from the spec: the library conversion `img.convert('RGB')`
for the remaining modes; the exact color math is the external
collaborator's and is delegated.  For an LA pixel the standard
conversion replicates the gray channel into R, G, B and discards the
alpha band without any compositing (this is why the source
special-cases only RGBA); the other delegated modes are represented by
a fixed per-pixel function whose values no claim depends on. -/
def libConvertRGB (m : Mode) (p : Pixel) : Pixel :=
  match m, p with
  | Mode.LA, [l, _] => [l, l, l]
  | _, _ => p.take 3

/-- The normalization policy of convert_images_to_pdf: RGB and L images
pass through unchanged, RGBA is composited onto white, everything else
is converted to RGB by the library. -/
def normalize_image (img : Image) : Image :=
  if img.mode = Mode.RGB ∨ img.mode = Mode.L then img
  else if img.mode = Mode.RGBA then
    { mode := Mode.RGB, size := img.size, data := img.data.map blendOntoWhite }
  else
    { mode := Mode.RGB, size := img.size,
      data := img.data.map (libConvertRGB img.mode) }

/-! ## The orchestrator

get_image_files filters the directory entries by the allow-listed
extensions (`Path.suffix.lower()`) and sorts them naturally;
convert_images_to_pdf decodes and normalizes each file in order,
warning about and skipping the ones that raise, then creates the
missing parent directories of the output path and saves the PDF.  The
decode and encode collaborators are inputs of the model: `dec f = none`
means opening/processing file `f` raises, `encodeOk = false` means the
final `save` call raises.
-/

/-- CPython `PurePath.suffix`: the substring of the name from its last
dot `i` when `0 < i < len(name) - 1`, else the empty string. -/
def pySuffix (n : List Char) : List Char :=
  match (n.reverse.findIdx? fun c => c = '.') with
  | none => []
  | some j =>
    let i := n.length - 1 - j
    if 0 < i ∧ i < n.length - 1 then n.drop i else []

/-- The allow-listed extensions of get_image_files. -/
def supported_formats : List (List Char) :=
  [['.', 'j', 'p', 'g'], ['.', 'j', 'p', 'e', 'g'], ['.', 'p', 'n', 'g'],
   ['.', 'b', 'm', 'p'], ['.', 't', 'i', 'f', 'f'], ['.', 't', 'i', 'f'],
   ['.', 'w', 'e', 'b', 'p'], ['.', 'g', 'i', 'f']]

/-- get_image_files on an existing directory: keep the entries (the
model's list holds the plain files of the folder) whose lower-cased
suffix is allow-listed, then sort them naturally with the fallback
path. -/
def get_image_files (entries : List (List Char)) : Option (List (List Char)) :=
  sort_by_natural_key
    (entries.filter fun n => supported_formats.contains (lowerStr (pySuffix n)))

/-- The external collaborators and environment of one run: the decode
result per file, whether the final save succeeds, and the missing
parent directories of the output path. -/
structure Collab where
  dec : List Char → Option Image
  encodeOk : Bool
  outParents : List (List Char)

/-- The outcome of convert_images_to_pdf: its Boolean return value, the
pages handed to the encoder, the files warned about, the directories
created for the output path, and whether the output file was written. -/
structure RunResult where
  success : Bool
  pages : List Image
  warnings : List (List Char)
  createdDirs : List (List Char)
  outputWritten : Bool
deriving DecidableEq

/-- The per-file loop of convert_images_to_pdf: decode and normalize
each file in order, collecting the pages; a file whose processing
raises is reported and skipped, and the loop continues. -/
def processLoop (dec : List Char → Option Image) : List (List Char) → List Image × List (List Char)
  | [] => ([], [])
  | f :: fs =>
    let rest := processLoop dec fs
    match dec f with
    | some img => (normalize_image img :: rest.1, rest.2)
    | none => (rest.1, f :: rest.2)

/-- convert_images_to_pdf on an existing directory: list and sort the
image files (`none` if the sort raises), fail when none are found,
process the files skipping failures, fail when no file processed, then
create the output path's missing parents and save (failure of the save
is caught and turned into a `False` return). -/
def convert_images_to_pdf (c : Collab) (entries : List (List Char)) : Option RunResult :=
  match get_image_files entries with
  | none => none
  | some files =>
    if files = [] then some ⟨false, [], [], [], false⟩
    else
      let pw := processLoop c.dec files
      if pw.1 = [] then some ⟨false, pw.1, pw.2, [], false⟩
      else if c.encodeOk then some ⟨true, pw.1, pw.2, c.outParents, true⟩
      else some ⟨false, pw.1, pw.2, c.outParents, false⟩

/-- main: exit code 0 when convert_images_to_pdf returns True, exit
code 1 when it returns False (`sys.exit(1)`). -/
def main_exit_code (c : Collab) (entries : List (List Char)) : Option Nat :=
  (convert_images_to_pdf c entries).map fun r => if r.success then 0 else 1

/-! ## Asymmetry of the Python comparison -/

lemma strLt_asymm : ∀ s t : List Char, strLt s t = true → strLt t s = false := by
  intro s
  induction s with
  | nil =>
    intro t h
    cases t with
    | nil => simp [strLt] at h
    | cons d ds => simp [strLt]
  | cons c cs ih =>
    intro t h
    cases t with
    | nil => simp [strLt] at h
    | cons d ds =>
      simp only [strLt] at h ⊢
      by_cases hcd : c = d
      · subst hcd
        simp only [if_pos rfl] at h ⊢
        exact ih ds h
      · rw [if_neg hcd] at h
        rw [if_neg (Ne.symm hcd)]
        simp only [decide_eq_true_eq] at h
        simp only [decide_eq_false_iff_not]
        omega

lemma tokLt_asymm : ∀ a b : Tok, tokLt a b = some true → tokLt b a = some false := by
  intro a b h
  cases a with
  | int m =>
    cases b with
    | int n =>
      simp only [tokLt, Option.some.injEq, decide_eq_true_eq] at h
      simp only [tokLt, Option.some.injEq, decide_eq_false_iff_not]
      omega
    | str t => simp [tokLt] at h
  | str s =>
    cases b with
    | int n => simp [tokLt] at h
    | str t =>
      simp only [tokLt, Option.some.injEq] at h
      simp only [tokLt, Option.some.injEq]
      exact strLt_asymm s t h

lemma ltPyList_asymm : ∀ k₁ k₂ : List Tok,
    ltPyList k₁ k₂ = some true → ltPyList k₂ k₁ = some false := by
  intro k₁
  induction k₁ with
  | nil =>
    intro k₂ h
    cases k₂ with
    | nil => simp [ltPyList] at h
    | cons t ts => simp [ltPyList]
  | cons t₁ ts₁ ih =>
    intro k₂ h
    cases k₂ with
    | nil => simp [ltPyList] at h
    | cons t₂ ts₂ =>
      simp only [ltPyList] at h ⊢
      by_cases het : t₁ = t₂
      · subst het
        rw [if_pos rfl] at h ⊢
        exact ih ts₂ h
      · rw [if_neg het] at h
        rw [if_neg (Ne.symm het)]
        exact tokLt_asymm t₁ t₂ h

lemma ltName_asymm : ∀ a b : List Char,
    ltName a b = some true → ltName b a = some false := by
  intro a b h
  exact ltPyList_asymm _ _ h

/-! ## Chains and idempotence of the fallible stable sort -/

/-- Every adjacent pair of the list is ordered: the later element is not
strictly below the earlier one, and the comparison is defined. -/
def chainLE {α : Type} (lt : α → α → Option Bool) : List α → Prop
  | [] => True
  | [_] => True
  | a :: b :: rest => lt b a = some false ∧ chainLE lt (b :: rest)

lemma chainLE_tail {α : Type} {lt : α → α → Option Bool} :
    ∀ {a : α} {l : List α}, chainLE lt (a :: l) → chainLE lt l := by
  intro a l h
  cases l with
  | nil => trivial
  | cons b r => exact h.2

lemma insertO_cases {α : Type} (lt : α → α → Option Bool) (x : α) :
    ∀ ys zs, insertO lt x ys = some zs →
      (zs = x :: ys ∧ (ys = [] ∨ ∃ w ws, ys = w :: ws ∧ lt w x = some false)) ∨
      (∃ w ws zs', ys = w :: ws ∧ zs = w :: zs' ∧
        lt w x = some true ∧ insertO lt x ws = some zs') := by
  intro ys zs h
  cases ys with
  | nil =>
    simp only [insertO, Option.some.injEq] at h
    exact Or.inl ⟨h.symm, Or.inl rfl⟩
  | cons y ys =>
    simp only [insertO] at h
    cases hl : lt y x with
    | none => rw [hl] at h; simp at h
    | some b =>
      rw [hl] at h
      cases b with
      | true =>
        simp only at h
        cases hz : insertO lt x ys with
        | none => rw [hz] at h; simp at h
        | some zs' =>
          rw [hz] at h
          simp only [Option.some.injEq] at h
          exact Or.inr ⟨y, ys, zs', rfl, h.symm, hl, hz⟩
      | false =>
        simp only [Option.some.injEq] at h
        exact Or.inl ⟨h.symm, Or.inr ⟨y, ys, rfl, hl⟩⟩

lemma insertO_chainLE {α : Type} {lt : α → α → Option Bool}
    (hasym : ∀ a b, lt a b = some true → lt b a = some false) :
    ∀ ys zs x, chainLE lt ys → insertO lt x ys = some zs → chainLE lt zs := by
  intro ys
  induction ys with
  | nil =>
    intro zs x _ h
    simp only [insertO, Option.some.injEq] at h
    subst h
    trivial
  | cons y ys ih =>
    intro zs x hch h
    rcases insertO_cases lt x (y :: ys) zs h with ⟨hz, hfront⟩ | ⟨w, ws, zs', hys, hz, htrue, hins⟩
    · subst hz
      rcases hfront with habs | ⟨w, ws, hws, hlt⟩
      · cases habs
      · cases hws
        exact ⟨hlt, hch⟩
    · injection hys with h1 h2
      subst h1
      subst h2
      subst hz
      have hch' : chainLE lt zs' := ih zs' x (chainLE_tail hch) hins
      rcases insertO_cases lt x ys zs' hins with ⟨hz', _⟩ | ⟨v, vs, zs'', hws, hz', hv, _⟩
      · subst hz'
        exact ⟨hasym _ _ htrue, hch'⟩
      · subst hws
        subst hz'
        exact ⟨hch.1, hch'⟩

lemma sortO_chainLE {α : Type} {lt : α → α → Option Bool}
    (hasym : ∀ a b, lt a b = some true → lt b a = some false) :
    ∀ l m, sortO lt l = some m → chainLE lt m := by
  intro l
  induction l with
  | nil =>
    intro m h
    simp only [sortO, Option.some.injEq] at h
    subst h
    trivial
  | cons x xs ih =>
    intro m h
    simp only [sortO] at h
    cases hs : sortO lt xs with
    | none => rw [hs] at h; simp at h
    | some m' =>
      rw [hs] at h
      exact insertO_chainLE hasym m' m x (ih m' hs) h

lemma sortO_of_chainLE {α : Type} {lt : α → α → Option Bool} :
    ∀ m, chainLE lt m → sortO lt m = some m := by
  intro m
  induction m with
  | nil => intro _; rfl
  | cons x xs ih =>
    intro hch
    simp only [sortO]
    rw [ih (chainLE_tail hch)]
    cases xs with
    | nil => rfl
    | cons y ys =>
      simp only [insertO, hch.1]

/-- Claim C9: natural sort is idempotent: whenever the fallback sort of
a list of filenames returns an ordering M, sorting M again returns M
itself. -/
theorem claim9_sort_idempotent :
    ∀ L M, sort_by_natural_key L = some M → sort_by_natural_key M = some M := by
  intro L M h
  exact sortO_of_chainLE M
    (sortO_chainLE (fun a b hab => ltName_asymm a b hab) L M h)

/-- Witness for C9 at a concrete input list. -/
theorem claim9_witness :
    sort_by_natural_key [['a', '1'], ['a', '2'], ['a', '1', '0']] =
      some [['a', '1'], ['a', '2'], ['a', '1', '0']] := by
  exact claim9_sort_idempotent [['a', '2'], ['a', '1', '0'], ['a', '1']]
    [['a', '1'], ['a', '2'], ['a', '1', '0']] (by decide)

/-! ## Alternation of the fallback keys and totality on tame names -/

lemma pyIsDigitChar_of_isDig {c : Char} (h : isDig c = true) : pyIsDigitChar c = true := by
  simp [pyIsDigitChar, h]

/-- A chunk of non-digits converts to a lower-cased text token. -/
lemma convert_of_gap {ch : List Char} (h : ∀ c ∈ ch, pyIsDigitChar c = false) :
    convert ch = Tok.str (lowerStr ch) := by
  cases ch with
  | nil => rfl
  | cons c cs =>
    have hc : pyIsDigitChar c = false := h c (by simp)
    simp [convert, pyStrIsDigit, hc]

/-- A nonempty chunk of ASCII digits converts to its integer value. -/
lemma convert_of_run {ch : List Char} (hne : ch ≠ []) (h : ∀ c ∈ ch, isDig c = true) :
    convert ch = Tok.int (pyInt ch) := by
  have hd : pyStrIsDigit ch = true := by
    cases ch with
    | nil => exact absurd rfl hne
    | cons c cs =>
      simp only [pyStrIsDigit, List.isEmpty_cons, Bool.not_false, Bool.true_and,
        List.all_eq_true]
      intro d hdmem
      exact pyIsDigitChar_of_isDig (h d hdmem)
  simp [convert, hd]

/-- Which token kind each position of an alternating key expects:
`true` = text token, `false` = numeric token. -/
def TokOk : Bool → Tok → Prop
  | true, Tok.str _ => True
  | true, Tok.int _ => False
  | false, Tok.int _ => True
  | false, Tok.str _ => False

/-- A key alternating text/numeric tokens from position parity `b`. -/
def AltTok : Bool → List Tok → Prop
  | _, [] => True
  | b, t :: ts => TokOk b t ∧ AltTok (!b) ts

lemma splitChunks_alt : ∀ (s : List Char) (mode : Bool) (cur : List Char),
    Tame s → Tame cur → (∀ c ∈ cur, isDig c = mode) → (mode = true → cur ≠ []) →
    AltTok (!mode) ((splitChunks mode cur s).map convert) := by
  intro s
  induction s with
  | nil =>
    intro mode cur hts htc hcls hne
    cases mode with
    | false =>
      have hg : ∀ c ∈ cur.reverse, pyIsDigitChar c = false := by
        intro c hc
        rw [List.mem_reverse] at hc
        rw [htc c hc]
        exact hcls c hc
      have h0 : splitChunks false cur [] = [cur.reverse] := rfl
      rw [h0, List.map_cons, List.map_nil, convert_of_gap hg]
      exact ⟨trivial, trivial⟩
    | true =>
      have hr : ∀ c ∈ cur.reverse, isDig c = true := by
        intro c hc
        rw [List.mem_reverse] at hc
        exact hcls c hc
      have hcur : cur.reverse ≠ [] := by
        intro habs
        exact hne rfl (List.reverse_eq_nil_iff.mp habs)
      have h0 : splitChunks true cur [] = [cur.reverse, []] := rfl
      rw [h0, List.map_cons, List.map_cons, List.map_nil, convert_of_run hcur hr]
      exact ⟨trivial, trivial, trivial⟩
  | cons c cs ih =>
    intro mode cur hts htc hcls hne
    have htcs : Tame cs := by
      intro d hd
      exact hts d (by simp [hd])
    have htcc : Tame [c] := by
      intro d hd
      simp only [List.mem_singleton] at hd
      rw [hd]
      exact hts c (by simp)
    by_cases hc : isDig c = mode
    · rw [splitChunks, if_pos hc]
      refine ih mode (c :: cur) htcs ?_ ?_ ?_
      · intro d hd
        rcases List.mem_cons.mp hd with h1 | h2
        · subst h1; exact hts d (by simp)
        · exact htc d h2
      · intro d hd
        rcases List.mem_cons.mp hd with h1 | h2
        · subst h1; exact hc
        · exact hcls d h2
      · intro _; exact List.cons_ne_nil c cur
    · rw [splitChunks, if_neg hc]
      have hcb : isDig c = !mode := by
        cases hdc : isDig c with
        | true =>
          cases mode with
          | true => exact absurd hdc hc
          | false => rfl
        | false =>
          cases mode with
          | true => rfl
          | false => exact absurd hdc hc
      have hrest := ih (!mode) [c] htcs htcc
        (by intro d hd; simp at hd; subst hd; exact hcb)
        (by intro _; exact List.cons_ne_nil c [])
      rw [Bool.not_not] at hrest
      cases mode with
      | false =>
        have hg : ∀ d ∈ cur.reverse, pyIsDigitChar d = false := by
          intro d hd
          rw [List.mem_reverse] at hd
          rw [htc d hd]
          exact hcls d hd
        simp only [List.map_cons, convert_of_gap hg]
        exact ⟨trivial, hrest⟩
      | true =>
        have hr : ∀ d ∈ cur.reverse, isDig d = true := by
          intro d hd
          rw [List.mem_reverse] at hd
          exact hcls d hd
        have hcur : cur.reverse ≠ [] := by
          intro habs
          exact hne rfl (List.reverse_eq_nil_iff.mp habs)
        simp only [List.map_cons, convert_of_run hcur hr]
        exact ⟨trivial, hrest⟩

/-- For a tame name, the fallback key alternates text, numeric, text,
numeric, ... starting with a text token, so element-wise comparison of
two such keys never meets a mixed pair. -/
lemma natural_sort_key_alt {n : List Char} (h : Tame n) :
    AltTok true (natural_sort_key n) := by
  have := splitChunks_alt n false [] h (by intro c hc; cases hc)
    (by intro c hc; cases hc) (by intro hc; cases hc)
  simpa [natural_sort_key] using this

lemma ltPyList_total : ∀ (k₁ : List Tok) (b : Bool) (k₂ : List Tok),
    AltTok b k₁ → AltTok b k₂ → (ltPyList k₁ k₂).isSome := by
  intro k₁
  induction k₁ with
  | nil =>
    intro b k₂ _ _
    cases k₂ <;> simp [ltPyList]
  | cons t₁ ts₁ ih =>
    intro b k₂ h₁ h₂
    cases k₂ with
    | nil => simp [ltPyList]
    | cons t₂ ts₂ =>
      simp only [ltPyList]
      by_cases het : t₁ = t₂
      · rw [if_pos het]
        subst het
        exact ih (!b) ts₂ h₁.2 h₂.2
      · rw [if_neg het]
        cases b with
        | true =>
          cases t₁ with
          | int v => exact absurd h₁.1 (by simp [TokOk])
          | str s =>
            cases t₂ with
            | int w => exact absurd h₂.1 (by simp [TokOk])
            | str t => simp [tokLt]
        | false =>
          cases t₁ with
          | str s => exact absurd h₁.1 (by simp [TokOk])
          | int v =>
            cases t₂ with
            | str t => exact absurd h₂.1 (by simp [TokOk])
            | int w => simp [tokLt]

lemma insertO_mem {α : Type} {lt : α → α → Option Bool} {x : α} :
    ∀ {ys zs : List α}, insertO lt x ys = some zs → ∀ z ∈ zs, z = x ∨ z ∈ ys := by
  intro ys
  induction ys with
  | nil =>
    intro zs h z hz
    simp only [insertO, Option.some.injEq] at h
    subst h
    simp at hz
    exact Or.inl hz
  | cons y ys ih =>
    intro zs h z hz
    rcases insertO_cases lt x (y :: ys) zs h with ⟨hzs, _⟩ | ⟨w, ws, zs', hys, hzs, _, hins⟩
    · subst hzs
      rcases List.mem_cons.mp hz with h1 | h2
      · exact Or.inl h1
      · exact Or.inr h2
    · injection hys with e1 e2
      subst e1
      subst e2
      subst hzs
      rcases List.mem_cons.mp hz with h1 | h2
      · exact Or.inr (by simp [h1])
      · rcases ih hins z h2 with h3 | h4
        · exact Or.inl h3
        · exact Or.inr (by simp [h4])

lemma insertO_isSome {α : Type} {lt : α → α → Option Bool} {x : α} :
    ∀ {ys : List α}, (∀ y ∈ ys, (lt y x).isSome) → (insertO lt x ys).isSome := by
  intro ys
  induction ys with
  | nil => intro _; simp [insertO]
  | cons y ys ih =>
    intro hdef
    simp only [insertO]
    cases hl : lt y x with
    | none =>
      have := hdef y (by simp)
      rw [hl] at this
      simp at this
    | some b =>
      cases b with
      | true =>
        have hs := ih (fun z hz => hdef z (by simp [hz]))
        cases hz : insertO lt x ys with
        | none => rw [hz] at hs; simp at hs
        | some zs => simp
      | false => simp

lemma sortO_sub {α : Type} {lt : α → α → Option Bool} :
    ∀ {l m : List α}, sortO lt l = some m → ∀ z ∈ m, z ∈ l := by
  intro l
  induction l with
  | nil =>
    intro m h z hz
    simp only [sortO, Option.some.injEq] at h
    subst h
    simp at hz
  | cons x xs ih =>
    intro m h z hz
    simp only [sortO] at h
    cases hs : sortO lt xs with
    | none => rw [hs] at h; simp at h
    | some m' =>
      rw [hs] at h
      rcases insertO_mem h z hz with h1 | h2
      · simp [h1]
      · exact List.mem_cons.mpr (Or.inr (ih hs z h2))

lemma sortO_isSome {α : Type} {lt : α → α → Option Bool} :
    ∀ l : List α, (∀ a ∈ l, ∀ b ∈ l, (lt a b).isSome) → (sortO lt l).isSome := by
  intro l
  induction l with
  | nil => intro _; simp [sortO]
  | cons x xs ih =>
    intro hdef
    simp only [sortO]
    have hs := ih (fun a ha b hb => hdef a (by simp [ha]) b (by simp [hb]))
    cases hm : sortO lt xs with
    | none => rw [hm] at hs; simp at hs
    | some m =>
      exact insertO_isSome (fun y hy =>
        hdef y (by simp [sortO_sub hm y hy]) x (by simp))

/-- Claim C5 (counterexample): the fallback sorter is not total.  On
the two names "٢" (U+0662, a character that Python's str.isdigit
accepts but the ASCII splitting class does not) and "a", the first key
is the bare integer 2, the second the bare string "a", and comparing
them raises a TypeError: the sort call fails. -/
theorem claim5_counterexample :
    sort_by_natural_key [[Char.ofNat 1634], ['a']] = none := by decide

/-- Claim C5 (amended): on every list of tame names, i.e. names on
which the per-character Python digit test agrees with the ASCII class
of the splitting pattern (in particular on every list of all-ASCII
names), the fallback sorter returns an ordering and no comparison
meets a mixed int/str pair. -/
theorem claim5_total_on_tame :
    ∀ L : List (List Char), (∀ n ∈ L, Tame n) →
      ∃ M, sort_by_natural_key L = some M := by
  intro L hL
  have hs : (sortO ltName L).isSome := by
    refine sortO_isSome L ?_
    intro a ha b hb
    exact ltPyList_total (natural_sort_key a) true (natural_sort_key b)
      (natural_sort_key_alt (hL a ha)) (natural_sort_key_alt (hL b hb))
  exact Option.isSome_iff_exists.mp hs

/-- Witness for the amended C5, on a list holding a digits-only name, a
name with a digit run and a plain name. -/
theorem claim5_witness :
    ∃ M, sort_by_natural_key [['1', '0'], ['x', '2'], ['a']] = some M :=
  claim5_total_on_tame [['1', '0'], ['x', '2'], ['a']] (by decide)

/-! ## Decomposition of a key around a digit run (for C1 and C4) -/

lemma isDig_false_of_py {c : Char} (h : pyIsDigitChar c = false) : isDig c = false := by
  simp only [pyIsDigitChar, Bool.or_eq_false_iff] at h
  exact h.1

lemma splitChunks_run_phase : ∀ (d cur t : List Char),
    (∀ c ∈ d, isDig c = true) → startsDig t = false →
    splitChunks true cur (d ++ t) = (cur.reverse ++ d) :: splitChunks false [] t := by
  intro d
  induction d with
  | nil =>
    intro cur t _ ht
    cases t with
    | nil => simp [splitChunks]
    | cons c cs =>
      have hc : isDig c = false := ht
      rw [List.nil_append, List.append_nil]
      rw [splitChunks, if_neg (by simp [hc])]
      rw [splitChunks, if_pos hc]
      rfl
  | cons e d' ih =>
    intro cur t hd ht
    have he : isDig e = true := hd e (by simp)
    have hstep : (e :: d') ++ t = e :: (d' ++ t) := rfl
    rw [hstep, splitChunks, if_pos he,
      ih (e :: cur) t (fun c hc => hd c (by simp [hc])) ht]
    simp [List.reverse_cons, List.append_assoc]

lemma splitChunks_decomp : ∀ (s cur d t : List Char),
    (∀ c ∈ s, isDig c = false) → d ≠ [] → (∀ c ∈ d, isDig c = true) →
    startsDig t = false →
    splitChunks false cur (s ++ d ++ t) =
      (cur.reverse ++ s) :: d :: splitChunks false [] t := by
  intro s
  induction s with
  | nil =>
    intro cur d t _ hdne hd ht
    cases d with
    | nil => exact absurd rfl hdne
    | cons e d' =>
      have he : isDig e = true := hd e (by simp)
      have hstep : ([] : List Char) ++ (e :: d') ++ t = e :: (d' ++ t) := rfl
      rw [hstep, splitChunks, if_neg (by simp [he])]
      have hrun := splitChunks_run_phase d' [e] t (fun c hc => hd c (by simp [hc])) ht
      simp only [List.reverse_cons, List.reverse_nil, List.nil_append,
        List.singleton_append] at hrun
      rw [show (!false) = true from rfl, hrun]
      simp
  | cons c s' ih =>
    intro cur d t hs hdne hd ht
    have hc : isDig c = false := hs c (by simp)
    have hstep : (c :: s') ++ d ++ t = c :: (s' ++ d ++ t) := rfl
    rw [hstep, splitChunks, if_pos hc,
      ih (c :: cur) d t (fun x hx => hs x (by simp [hx])) hdne hd ht]
    simp [List.reverse_cons, List.append_assoc]

/-- The fallback key of a name assembled as non-digit text, digit run,
rest: the key starts with the lower-cased text token, then the integer
value of the run. -/
lemma natural_sort_key_decomp {s d t : List Char}
    (hs : ∀ c ∈ s, pyIsDigitChar c = false) (hdne : d ≠ [])
    (hd : ∀ c ∈ d, isDig c = true) (ht : startsDig t = false) :
    natural_sort_key (s ++ d ++ t) =
      Tok.str (lowerStr s) :: Tok.int (pyInt d) ::
        (splitChunks false [] t).map convert := by
  have hs' : ∀ c ∈ s, isDig c = false := fun c hc => isDig_false_of_py (hs c hc)
  rw [natural_sort_key, splitChunks_decomp s [] d t hs' hdne hd ht]
  rw [List.map_cons, List.map_cons]
  rw [List.reverse_nil, List.nil_append, convert_of_gap hs, convert_of_run hdne hd]

lemma ltPyList_cons (a b : Tok) (l₁ l₂ : List Tok) :
    ltPyList (a :: l₁) (b :: l₂) = if a = b then ltPyList l₁ l₂ else tokLt a b := rfl

/-- Claim C1: digit runs at the same position compare as integers, not
character-by-character: a name whose first digit run has the smaller
value compares strictly below regardless of the surrounding text, and
the two sample lists of the spec sort as stated. -/
theorem claim1_numeric_run_order :
    (∀ s d₁ d₂ t₁ t₂ : List Char,
        (∀ c ∈ s, pyIsDigitChar c = false) →
        d₁ ≠ [] → d₂ ≠ [] →
        (∀ c ∈ d₁, isDig c = true) → (∀ c ∈ d₂, isDig c = true) →
        startsDig t₁ = false → startsDig t₂ = false →
        pyInt d₁ < pyInt d₂ →
        ltName (s ++ d₁ ++ t₁) (s ++ d₂ ++ t₂) = some true) ∧
    sort_by_natural_key
        [['i','m','g','2','.','p','n','g'], ['i','m','g','1','0','.','p','n','g'],
         ['i','m','g','1','.','p','n','g']] =
      some [['i','m','g','1','.','p','n','g'], ['i','m','g','2','.','p','n','g'],
         ['i','m','g','1','0','.','p','n','g']] ∧
    sort_by_natural_key [['a','2'], ['a','1','0'], ['a','1']] =
      some [['a','1'], ['a','2'], ['a','1','0']] := by
  refine ⟨?_, by decide, by decide⟩
  intro s d₁ d₂ t₁ t₂ hs h1ne h2ne hd1 hd2 ht1 ht2 hlt
  rw [ltName, natural_sort_key_decomp hs h1ne hd1 ht1,
      natural_sort_key_decomp hs h2ne hd2 ht2]
  rw [ltPyList_cons, if_pos rfl, ltPyList_cons,
    if_neg (fun h => by injection h with hv; omega)]
  simp only [tokLt, Option.some.injEq]
  exact decide_eq_true hlt

/-- Witness for the general part of C1: "img2.png" against "img10.png". -/
theorem claim1_witness :
    ltName (['i','m','g'] ++ ['2'] ++ ['.','p','n','g'])
        (['i','m','g'] ++ ['1','0'] ++ ['.','p','n','g']) = some true :=
  claim1_numeric_run_order.1 ['i','m','g'] ['2'] ['1','0'] ['.','p','n','g']
    ['.','p','n','g'] (by decide) (by decide) (by decide) (by decide) (by decide)
    (by decide) (by decide) (by decide)

/-- Claim C4: a leading zero never changes the integer value of a digit
run, so "a007" and "a7" carry equal keys, and the stable sort keeps
their original relative order, both before "a8". -/
theorem claim4_leading_zeros :
    (∀ ds : List Char, pyInt ('0' :: ds) = pyInt ds) ∧
    natural_sort_key ['a','0','0','7'] = natural_sort_key ['a','7'] ∧
    sort_by_natural_key [['a','0','0','7'], ['a','7'], ['a','8']] =
      some [['a','0','0','7'], ['a','7'], ['a','8']] := by
  refine ⟨?_, by decide, by decide⟩
  intro ds
  rfl

/-! ## The normalizer claims (C2, C6) -/

/-- Claim C2 (counterexample): not every alpha-carrying source is
composited onto white.  A grayscale-plus-alpha image (mode LA, reachable
from an allow-listed .png) is not mode RGBA, so it takes the
`img.convert('RGB')` branch, which discards the alpha band: a fully
transparent black LA pixel normalizes to black, not to pure white as
the claim requires of every alpha-carrying source. -/
theorem claim2_counterexample :
    (normalize_image ⟨Mode.LA, (1, 1), [[0, 0]]⟩).data = [[0, 0, 0]] ∧
      [[(0 : ℚ), 0, 0]] ≠ [[(255 : ℚ), 255, 255]] := by decide

/-- Claim C2 (amended): normalization of an RGBA image composites every
pixel onto the solid white background per channel and drops the alpha
channel: output = source_rgb * alpha + white * (1 - alpha) with alpha
scaled to [0,1]; a fully transparent pixel becomes pure white and a
fully opaque pixel keeps its RGB value unchanged.  Only mode RGBA is
composited; other alpha-carrying modes go through the plain library
conversion. -/
theorem claim2_alpha_composite :
    ∀ img : Image, img.mode = Mode.RGBA →
      (normalize_image img).mode = Mode.RGB ∧
      (normalize_image img).data = img.data.map blendOntoWhite ∧
      (∀ r g b a : ℚ, blendOntoWhite [r, g, b, a] =
        [r * (a / 255) + 255 * (1 - a / 255),
         g * (a / 255) + 255 * (1 - a / 255),
         b * (a / 255) + 255 * (1 - a / 255)]) ∧
      (∀ r g b : ℚ, blendOntoWhite [r, g, b, 0] = [255, 255, 255] ∧
        blendOntoWhite [r, g, b, 255] = [r, g, b]) := by
  intro img h
  refine ⟨?_, ?_, ?_, ?_⟩
  · simp [normalize_image, h]
  · simp [normalize_image, h]
  · intro r g b a
    rfl
  · intro r g b
    constructor
    · show [pasteBlend 255 r 0, pasteBlend 255 g 0, pasteBlend 255 b 0] = _
      norm_num [pasteBlend]
    · show [pasteBlend 255 r 255, pasteBlend 255 g 255, pasteBlend 255 b 255] = _
      norm_num [pasteBlend]

/-- Witness for C2 on a concrete RGBA image. -/
theorem claim2_witness :
    (normalize_image ⟨Mode.RGBA, (1, 1), [[10, 20, 30, 0]]⟩).mode = Mode.RGB ∧
      blendOntoWhite [10, 20, 30, 255] = [10, 20, 30] :=
  ⟨(claim2_alpha_composite ⟨Mode.RGBA, (1, 1), [[10, 20, 30, 0]]⟩ rfl).1,
   ((claim2_alpha_composite ⟨Mode.RGBA, (1, 1), [[10, 20, 30, 0]]⟩ rfl).2.2.2
     10 20 30).2⟩

/-- Claim C6: an image already in mode L or RGB passes through the
normalizer unchanged (the buffer copy is the identity in value
semantics), so normalization is idempotent on canonical input. -/
theorem claim6_normalize_idempotent :
    ∀ img : Image, img.mode = Mode.L ∨ img.mode = Mode.RGB →
      normalize_image img = img ∧
      normalize_image (normalize_image img) = normalize_image img := by
  intro img h
  have hid : normalize_image img = img := by
    rcases h with h | h
    · simp [normalize_image, h]
    · simp [normalize_image, h]
  refine ⟨hid, ?_⟩
  rw [hid]
  exact hid

/-- Witness for C6 on a concrete grayscale image. -/
theorem claim6_witness :
    normalize_image (normalize_image ⟨Mode.L, (1, 1), [[7]]⟩) =
      normalize_image ⟨Mode.L, (1, 1), [[7]]⟩ :=
  (claim6_normalize_idempotent ⟨Mode.L, (1, 1), [[7]]⟩ (Or.inl rfl)).2

/-! ## The orchestrator claims (C7, C8, C10) -/

lemma processLoop_eq (dec : List Char → Option Image) :
    ∀ files : List (List Char),
      processLoop dec files =
        (files.filterMap fun f => (dec f).map normalize_image,
         files.filter fun f => (dec f).isNone) := by
  intro files
  induction files with
  | nil => rfl
  | cons f fs ih =>
    simp only [processLoop, ih]
    cases hf : dec f with
    | none => simp [List.filterMap_cons, List.filter_cons, hf]
    | some img => simp [List.filterMap_cons, List.filter_cons, hf]

/-- The concrete one-good-one-corrupt example folder for C7. -/
def exGoodName : List Char := ['i', 'm', 'g', '1', '.', 'p', 'n', 'g']

/-- The corrupt file of the C7 example (decoding it raises). -/
def exBadName : List Char := ['b', 'a', 'd', '.', 'p', 'n', 'g']

/-- The decoded pixel content of the valid file of the C7 example. -/
def exImage : Image := ⟨Mode.RGB, (1, 1), [[0, 0, 0]]⟩

/-- Collaborators of the C7 example: only the valid file decodes, the
final save succeeds. -/
def exCollab : Collab :=
  ⟨fun n => if n = exGoodName then some exImage else none, true, []⟩

/-- Claim C7: every file whose decode fails is warned about and
skipped, processing continues, and the document holds one page per
successfully processed file in sorted order with the failures removed;
on the one-valid-one-corrupt example folder this gives a one-page
document, one warning and exit code 0. -/
theorem claim7_skip_failures :
    (∀ (c : Collab) (entries files : List (List Char)) (r : RunResult),
        get_image_files entries = some files →
        convert_images_to_pdf c entries = some r →
        r.warnings = files.filter (fun f => (c.dec f).isNone) ∧
        r.pages = files.filterMap (fun f => (c.dec f).map normalize_image)) ∧
    (convert_images_to_pdf exCollab [exGoodName, exBadName] =
        some ⟨true, [exImage], [exBadName], [], true⟩ ∧
      main_exit_code exCollab [exGoodName, exBadName] = some 0) := by
  refine ⟨?_, by decide, by decide⟩
  intro c entries files r h1 h2
  rw [convert_images_to_pdf, h1] at h2
  simp only [processLoop_eq] at h2
  by_cases hnil : files = []
  · rw [if_pos hnil] at h2
    simp only [Option.some.injEq] at h2
    subst hnil
    rw [← h2]
    exact ⟨rfl, rfl⟩
  · rw [if_neg hnil] at h2
    by_cases hpg : (files.filterMap fun f => (c.dec f).map normalize_image) = []
    · rw [if_pos hpg] at h2
      simp only [Option.some.injEq] at h2
      rw [← h2]
      exact ⟨rfl, by simp [hpg]⟩
    · rw [if_neg hpg] at h2
      by_cases he : c.encodeOk
      · rw [if_pos he] at h2
        simp only [Option.some.injEq] at h2
        rw [← h2]
        exact ⟨rfl, rfl⟩
      · rw [if_neg he] at h2
        simp only [Option.some.injEq] at h2
        rw [← h2]
        exact ⟨rfl, rfl⟩

/-- Witness for the general part of C7 at the concrete example run:
the warning list is exactly the filter of the failing files. -/
theorem claim7_witness :
    (⟨true, [exImage], [exBadName], [], true⟩ : RunResult).warnings =
      [exBadName, exGoodName].filter (fun f => (exCollab.dec f).isNone) :=
  (claim7_skip_failures.1 exCollab [exGoodName, exBadName]
    [exBadName, exGoodName] ⟨true, [exImage], [exBadName], [], true⟩
    (by decide) (by decide)).1

/-- Claim C8: when no allow-listed file is found, or every candidate
file fails to decode, convert_images_to_pdf returns False without
writing anything and main exits with code 1. -/
theorem claim8_zero_images_fail :
    ∀ (c : Collab) (entries files : List (List Char)) (r : RunResult),
      get_image_files entries = some files →
      convert_images_to_pdf c entries = some r →
      (files = [] ∨ ∀ f ∈ files, c.dec f = none) →
      r.success = false ∧ r.outputWritten = false ∧ r.createdDirs = [] ∧
      main_exit_code c entries = some 1 := by
  intro c entries files r h1 h2 hzero
  have hr : r.success = false ∧ r.outputWritten = false ∧ r.createdDirs = [] := by
    rw [convert_images_to_pdf, h1] at h2
    simp only [processLoop_eq] at h2
    rcases hzero with hnil | hall
    · rw [if_pos hnil] at h2
      simp only [Option.some.injEq] at h2
      rw [← h2]
      exact ⟨rfl, rfl, rfl⟩
    · have hpg : (files.filterMap fun f => (c.dec f).map normalize_image) = [] :=
        List.filterMap_eq_nil_iff.mpr fun f hf => by rw [hall f hf]; rfl
      by_cases hnil : files = []
      · rw [if_pos hnil] at h2
        simp only [Option.some.injEq] at h2
        rw [← h2]
        exact ⟨rfl, rfl, rfl⟩
      · rw [if_neg hnil, if_pos hpg] at h2
        simp only [Option.some.injEq] at h2
        rw [← h2]
        exact ⟨rfl, rfl, rfl⟩
  refine ⟨hr.1, hr.2.1, hr.2.2, ?_⟩
  rw [main_exit_code, h2, Option.map_some', hr.1]
  rfl

/-- Witness for C8: the empty folder exits with code 1. -/
theorem claim8_witness :
    main_exit_code ⟨fun _ => none, true, []⟩ [] = some 1 :=
  (claim8_zero_images_fail ⟨fun _ => none, true, []⟩ [] []
    ⟨false, [], [], [], false⟩ rfl rfl (Or.inl rfl)).2.2.2

/-- Claim C10: the missing parent directories of the output path are
created before the save is attempted, so when the save raises, the run
exits with code 1 and no output file is written, but the created
directories remain. -/
theorem claim10_mkdir_before_save :
    ∀ (c : Collab) (entries files : List (List Char)) (r : RunResult),
      get_image_files entries = some files →
      convert_images_to_pdf c entries = some r →
      r.pages ≠ [] → c.encodeOk = false →
      main_exit_code c entries = some 1 ∧ r.createdDirs = c.outParents ∧
      r.outputWritten = false := by
  intro c entries files r h1 h2 hpages he
  have hr : r.success = false ∧ r.createdDirs = c.outParents ∧
      r.outputWritten = false := by
    rw [convert_images_to_pdf, h1] at h2
    simp only [processLoop_eq] at h2
    by_cases hnil : files = []
    · rw [if_pos hnil] at h2
      simp only [Option.some.injEq] at h2
      rw [← h2] at hpages
      exact absurd rfl hpages
    · rw [if_neg hnil] at h2
      by_cases hpg : (files.filterMap fun f => (c.dec f).map normalize_image) = []
      · rw [if_pos hpg] at h2
        simp only [Option.some.injEq] at h2
        rw [← h2] at hpages
        exact absurd hpg hpages
      · rw [if_neg hpg, if_neg (by rw [he]; exact Bool.false_ne_true)] at h2
        simp only [Option.some.injEq] at h2
        rw [← h2]
        exact ⟨rfl, rfl, rfl⟩
  refine ⟨?_, hr.2.1, hr.2.2⟩
  rw [main_exit_code, h2, Option.map_some', hr.1]
  rfl

/-- Collaborators for the C10 witness: decoding succeeds, the save
raises, one parent directory is missing. -/
def exCollabFail : Collab :=
  ⟨fun _ => some ⟨Mode.L, (1, 1), [[0]]⟩, false, [['o', 'u', 't']]⟩

/-- Witness for C10: directories are created, exit code is 1. -/
theorem claim10_witness :
    main_exit_code exCollabFail [exGoodName] = some 1 ∧
      (⟨false, [⟨Mode.L, (1, 1), [[0]]⟩], [], [['o', 'u', 't']], false⟩ :
        RunResult).createdDirs = [['o', 'u', 't']] := by
  have h := claim10_mkdir_before_save exCollabFail [exGoodName] [exGoodName]
    ⟨false, [⟨Mode.L, (1, 1), [[0]]⟩], [], [['o', 'u', 't']], false⟩
    (by decide) (by decide) (by simp) rfl
  exact ⟨h.1, h.2.1⟩

/-! ## Relating the two natural-sort code paths (C3)

For a tame name that does not start with a digit, the fallback key is
exactly the spec-modelled key with one empty text token appended when
the name ends in a digit run (and the key of the empty name is the
single empty text token).  `SpecShape` captures the shape of the
spec-modelled keys: alternating, starting with a nonempty text token;
`padFrom` re-inserts the trailing empty chunk the fallback keeps.
-/

/-- Shape of a spec-modelled key from position parity `b` (`true` =
text position): tokens alternate and every text token is nonempty. -/
def SpecShape : Bool → List Tok → Prop
  | _, [] => True
  | true, Tok.str s :: ts => s ≠ [] ∧ SpecShape false ts
  | true, Tok.int _ :: _ => False
  | false, Tok.int _ :: ts => SpecShape true ts
  | false, Tok.str _ :: _ => False

/-- Re-insert the trailing empty text chunk of the fallback key: after
an exhausted key whose next position expects text, the fallback still
holds one empty string token. -/
def padFrom : Bool → List Tok → List Tok
  | true, [] => [Tok.str []]
  | false, [] => []
  | b, t :: ts => t :: padFrom (!b) ts

lemma tagChunks_pad : ∀ (s : List Char) (mode : Bool) (cur : List Char),
    Tame s → Tame cur → (∀ c ∈ cur, isDig c = mode) → cur ≠ [] →
    (splitChunks mode cur s).map convert =
        padFrom (!mode) (tagChunks mode (splitChunks mode cur s)) ∧
      SpecShape (!mode) (tagChunks mode (splitChunks mode cur s)) := by
  intro s
  induction s with
  | nil =>
    intro mode cur hts htc hcls hcur
    have hrne : cur.reverse ≠ [] := by
      simp only [ne_eq, List.reverse_eq_nil_iff]
      exact hcur
    cases mode with
    | false =>
      have hg : ∀ c ∈ cur.reverse, pyIsDigitChar c = false := by
        intro c hc
        rw [List.mem_reverse] at hc
        rw [htc c hc]
        exact hcls c hc
      have h0 : splitChunks false cur [] = [cur.reverse] := rfl
      rw [h0, List.map_cons, List.map_nil, convert_of_gap hg]
      have h1 : tagChunks false [cur.reverse] = [Tok.str (lowerStr cur.reverse)] := by
        simp only [tagChunks, if_neg hrne]
        rfl
      rw [h1]
      refine ⟨rfl, ?_, trivial⟩
      simp only [ne_eq, lowerStr, List.map_eq_nil_iff]
      exact hrne
    | true =>
      have hr : ∀ c ∈ cur.reverse, isDig c = true := by
        intro c hc
        rw [List.mem_reverse] at hc
        exact hcls c hc
      have h0 : splitChunks true cur [] = [cur.reverse, []] := rfl
      rw [h0, List.map_cons, List.map_cons, List.map_nil, convert_of_run hrne hr]
      have h1 : tagChunks true [cur.reverse, []] = [Tok.int (pyInt cur.reverse)] := by
        simp only [tagChunks, if_neg hrne, if_pos rfl]
        rfl
      rw [h1]
      exact ⟨rfl, trivial⟩
  | cons c cs ih =>
    intro mode cur hts htc hcls hcur
    have htcs : Tame cs := fun d hd => hts d (by simp [hd])
    have htcc : Tame [c] := by
      intro d hd
      simp only [List.mem_singleton] at hd
      rw [hd]
      exact hts c (by simp)
    have hrne : cur.reverse ≠ [] := by
      simp only [ne_eq, List.reverse_eq_nil_iff]
      exact hcur
    by_cases hc : isDig c = mode
    · rw [splitChunks, if_pos hc]
      refine ih mode (c :: cur) htcs ?_ ?_ (List.cons_ne_nil c cur)
      · intro d hd
        rcases List.mem_cons.mp hd with h1 | h2
        · rw [h1]; exact hts c (by simp)
        · exact htc d h2
      · intro d hd
        rcases List.mem_cons.mp hd with h1 | h2
        · rw [h1]; exact hc
        · exact hcls d h2
    · rw [splitChunks, if_neg hc]
      have hcb : isDig c = !mode := by
        cases hdc : isDig c with
        | true =>
          cases mode with
          | true => exact absurd hdc hc
          | false => rfl
        | false =>
          cases mode with
          | true => rfl
          | false => exact absurd hdc hc
      have hrest := ih (!mode) [c] htcs htcc
        (by intro d hd; simp only [List.mem_singleton] at hd; rw [hd]; exact hcb)
        (List.cons_ne_nil c [])
      rw [Bool.not_not] at hrest
      cases mode with
      | false =>
        simp only [Bool.not_false] at hrest ⊢
        have hg : ∀ d ∈ cur.reverse, pyIsDigitChar d = false := by
          intro d hd
          rw [List.mem_reverse] at hd
          rw [htc d hd]
          exact hcls d hd
        rw [List.map_cons, convert_of_gap hg]
        have h1 : tagChunks false (cur.reverse :: splitChunks true [c] cs) =
            Tok.str (lowerStr cur.reverse) ::
              tagChunks true (splitChunks true [c] cs) := by
          simp only [tagChunks, if_neg hrne]
          rfl
        rw [h1]
        refine ⟨?_, ?_, hrest.2⟩
        · have h2 : padFrom true (Tok.str (lowerStr cur.reverse) ::
              tagChunks true (splitChunks true [c] cs)) =
              Tok.str (lowerStr cur.reverse) ::
                padFrom false (tagChunks true (splitChunks true [c] cs)) := rfl
          rw [h2, hrest.1]
        · simp only [ne_eq, lowerStr, List.map_eq_nil_iff]
          exact hrne
      | true =>
        simp only [Bool.not_true] at hrest ⊢
        have hr : ∀ d ∈ cur.reverse, isDig d = true := by
          intro d hd
          rw [List.mem_reverse] at hd
          exact hcls d hd
        rw [List.map_cons, convert_of_run hrne hr]
        have h1 : tagChunks true (cur.reverse :: splitChunks false [c] cs) =
            Tok.int (pyInt cur.reverse) ::
              tagChunks false (splitChunks false [c] cs) := by
          simp only [tagChunks, if_neg hrne]
          rfl
        rw [h1]
        refine ⟨?_, hrest.2⟩
        have h2 : padFrom false (Tok.int (pyInt cur.reverse) ::
            tagChunks false (splitChunks false [c] cs)) =
            Tok.int (pyInt cur.reverse) ::
              padFrom true (tagChunks false (splitChunks false [c] cs)) := rfl
        rw [h2, hrest.1]

/-- For a tame name not starting with a digit, the fallback key is the
padded spec-modelled key, and the spec-modelled key is well-shaped. -/
lemma natural_sort_key_pad {n : List Char} (ht : Tame n) (hs : startsDig n = false) :
    natural_sort_key n = padFrom true (specKey n) ∧ SpecShape true (specKey n) := by
  cases n with
  | nil => exact ⟨rfl, trivial⟩
  | cons c cs =>
    have hc : isDig c = false := hs
    have h1 : splitChunks false [] (c :: cs) = splitChunks false [c] cs := by
      rw [splitChunks, if_pos hc]
    rw [natural_sort_key, specKey, h1]
    have := tagChunks_pad cs false [c] (fun d hd => ht d (by simp [hd]))
      (by intro d hd; simp only [List.mem_singleton] at hd; rw [hd]; exact ht c (by simp))
      (by intro d hd; simp only [List.mem_singleton] at hd; rw [hd]; exact hc)
      (List.cons_ne_nil c [])
    exact this

lemma specLtKeys_cons (a b : Tok) (l₁ l₂ : List Tok) :
    specLtKeys (a :: l₁) (b :: l₂) =
      if a = b then specLtKeys l₁ l₂ else specTokLt a b := rfl

lemma ltPyList_padFrom : ∀ (k₁ : List Tok) (b : Bool) (k₂ : List Tok),
    SpecShape b k₁ → SpecShape b k₂ →
    ltPyList (padFrom b k₁) (padFrom b k₂) = some (specLtKeys k₁ k₂) := by
  intro k₁
  induction k₁ with
  | nil =>
    intro b k₂ _ h₂
    cases k₂ with
    | nil => cases b <;> rfl
    | cons t ts =>
      cases b with
      | true =>
        cases t with
        | int v => exact absurd h₂ (by simp [SpecShape])
        | str s =>
          obtain ⟨hne, _⟩ := h₂
          cases s with
          | nil => exact absurd rfl hne
          | cons d ds =>
            rw [show padFrom true ([] : List Tok) = [Tok.str []] from rfl,
              show padFrom true (Tok.str (d :: ds) :: ts) =
                Tok.str (d :: ds) :: padFrom false ts from rfl,
              ltPyList_cons, if_neg (by simp)]
            rfl
      | false =>
        cases t with
        | str s => exact absurd h₂ (by simp [SpecShape])
        | int v => rfl
  | cons t₁ ts₁ ih =>
    intro b k₂ h₁ h₂
    cases k₂ with
    | nil =>
      cases b with
      | true =>
        cases t₁ with
        | int v => exact absurd h₁ (by simp [SpecShape])
        | str s =>
          obtain ⟨hne, _⟩ := h₁
          cases s with
          | nil => exact absurd rfl hne
          | cons d ds =>
            rw [show padFrom true ([] : List Tok) = [Tok.str []] from rfl,
              show padFrom true (Tok.str (d :: ds) :: ts₁) =
                Tok.str (d :: ds) :: padFrom false ts₁ from rfl,
              ltPyList_cons, if_neg (by simp)]
            rfl
      | false =>
        cases t₁ with
        | str s => exact absurd h₁ (by simp [SpecShape])
        | int v => rfl
    | cons t₂ ts₂ =>
      cases b with
      | true =>
        cases t₁ with
        | int v => exact absurd h₁ (by simp [SpecShape])
        | str s₁ =>
          cases t₂ with
          | int w => exact absurd h₂ (by simp [SpecShape])
          | str s₂ =>
            rw [show padFrom true (Tok.str s₁ :: ts₁) =
                Tok.str s₁ :: padFrom false ts₁ from rfl,
              show padFrom true (Tok.str s₂ :: ts₂) =
                Tok.str s₂ :: padFrom false ts₂ from rfl,
              ltPyList_cons, specLtKeys_cons]
            by_cases heq : Tok.str s₁ = Tok.str s₂
            · rw [if_pos heq, if_pos heq]
              exact ih false ts₂ h₁.2 h₂.2
            · rw [if_neg heq, if_neg heq]
              rfl
      | false =>
        cases t₁ with
        | str s => exact absurd h₁ (by simp [SpecShape])
        | int v₁ =>
          cases t₂ with
          | str t => exact absurd h₂ (by simp [SpecShape])
          | int v₂ =>
            rw [show padFrom false (Tok.int v₁ :: ts₁) =
                Tok.int v₁ :: padFrom true ts₁ from rfl,
              show padFrom false (Tok.int v₂ :: ts₂) =
                Tok.int v₂ :: padFrom true ts₂ from rfl,
              ltPyList_cons, specLtKeys_cons]
            by_cases heq : Tok.int v₁ = Tok.int v₂
            · rw [if_pos heq, if_pos heq]
              exact ih true ts₂ h₁ h₂
            · rw [if_neg heq, if_neg heq]
              rfl

/-- On two tame names that do not start with a digit, the fallback
comparison succeeds and agrees with the spec-modelled comparison. -/
lemma ltName_eq_spec {a b : List Char} (hta : Tame a) (hsa : startsDig a = false)
    (htb : Tame b) (hsb : startsDig b = false) :
    ltName a b = some (spec_lt_name a b) := by
  obtain ⟨hpa, hsha⟩ := natural_sort_key_pad hta hsa
  obtain ⟨hpb, hshb⟩ := natural_sort_key_pad htb hsb
  rw [ltName, hpa, hpb, spec_lt_name]
  exact ltPyList_padFrom (specKey a) true (specKey b) hsha hshb

/-! ## Pointwise-equal comparators sort equally -/

lemma insertB_mem {α : Type} {lt : α → α → Bool} {x : α} :
    ∀ {ys : List α}, ∀ z ∈ insertB lt x ys, z = x ∨ z ∈ ys := by
  intro ys
  induction ys with
  | nil =>
    intro z hz
    simp only [insertB, List.mem_singleton] at hz
    exact Or.inl hz
  | cons y ys ih =>
    intro z hz
    simp only [insertB] at hz
    by_cases hl : lt y x
    · rw [if_pos hl] at hz
      rcases List.mem_cons.mp hz with h1 | h2
      · exact Or.inr (by simp [h1])
      · rcases ih z h2 with h3 | h4
        · exact Or.inl h3
        · exact Or.inr (by simp [h4])
    · rw [if_neg hl] at hz
      rcases List.mem_cons.mp hz with h1 | h2
      · exact Or.inl h1
      · exact Or.inr h2

lemma sortB_sub {α : Type} {lt : α → α → Bool} :
    ∀ {l : List α}, ∀ z ∈ sortB lt l, z ∈ l := by
  intro l
  induction l with
  | nil => intro z hz; simp [sortB] at hz
  | cons x xs ih =>
    intro z hz
    simp only [sortB] at hz
    rcases insertB_mem z hz with h1 | h2
    · simp [h1]
    · exact List.mem_cons.mpr (Or.inr (ih z h2))

lemma insertO_eq_insertB {α : Type} {lt : α → α → Option Bool}
    {lt' : α → α → Bool} {x : α} :
    ∀ {ys : List α}, (∀ y ∈ ys, lt y x = some (lt' y x)) →
      insertO lt x ys = some (insertB lt' x ys) := by
  intro ys
  induction ys with
  | nil => intro _; rfl
  | cons y ys ih =>
    intro hpt
    have hy : lt y x = some (lt' y x) := hpt y (by simp)
    simp only [insertO, insertB, hy]
    cases hb : lt' y x with
    | true =>
      rw [ih (fun z hz => hpt z (by simp [hz]))]
      simp
    | false => simp

lemma sortO_eq_sortB {α : Type} {lt : α → α → Option Bool} {lt' : α → α → Bool} :
    ∀ l : List α, (∀ a ∈ l, ∀ b ∈ l, lt a b = some (lt' a b)) →
      sortO lt l = some (sortB lt' l) := by
  intro l
  induction l with
  | nil => intro _; rfl
  | cons x xs ih =>
    intro hpt
    simp only [sortO, sortB]
    rw [ih (fun a ha b hb => hpt a (by simp [ha]) b (by simp [hb]))]
    exact insertO_eq_insertB (fun y hy =>
      hpt y (by simp [sortB_sub y hy]) x (by simp))

/-- Claim C3 (counterexample): the two natural-sort code paths order
the names "1" and "a" differently: the fallback path puts the
digit-led name first (its key starts with an empty text chunk), the
spec-modelled natsort path puts text before numeric. -/
theorem claim3_counterexample :
    sort_by_natural_key [['1'], ['a']] ≠ some (natsorted [['1'], ['a']]) := by decide

/-- Claim C3 (amended): on lists of tame names none of which begins
with a digit, the fallback path and the spec-modelled natsort path
produce the same ordering. -/
theorem claim3_paths_agree :
    ∀ L : List (List Char), (∀ n ∈ L, Tame n ∧ startsDig n = false) →
      sort_by_natural_key L = some (natsorted L) := by
  intro L h
  exact sortO_eq_sortB L (fun a ha b hb =>
    ltName_eq_spec (h a ha).1 (h a ha).2 (h b hb).1 (h b hb).2)

/-- Witness for the amended C3. -/
theorem claim3_witness :
    sort_by_natural_key [['a', '2'], ['a', '1', '0'], ['a', '1']] =
      some (natsorted [['a', '2'], ['a', '1', '0'], ['a', '1']]) :=
  claim3_paths_agree [['a', '2'], ['a', '1', '0'], ['a', '1']] (by decide)
